import Mathlib

/-!
Shallow embedding of `examples/src/local_example/fibonacci_calculator.py` and
proofs about it.

The script has three numeric routines and a command-line driver:

* `is_perfect_square(x)` computes `root = int(math.sqrt(x))` and returns
  `root * root == x` (and `False` for negative `x`);
* `is_fibonacci(n)` returns whether `5*n*n + 4` or `5*n*n - 4` is reported
  a perfect square by the helper;
* `find_next_fibonacci(n)` returns 0 for `n < 0`, 1 for `n = 0`, and otherwise
  iterates `(prev, curr) = (curr, prev + curr)` from `(0, 1)` while
  `curr <= n`, returning the first `curr > n`;
* `main()` validates `sys.argv`, prints three lines on success, and exits
  with status 1 on wrong argument count, unparsable or negative input.

Python integers are arbitrary precision, so they are embedded as `ℤ` (loop
state that is provably non-negative is kept in `ℕ`).  The call
`int(math.sqrt(x))` goes through IEEE-754 binary64 arithmetic: CPython first
converts the int `x` to a double (round to nearest, ties to even, 53-bit
significand; `OverflowError` when the rounded value exceeds the largest
finite double) and `math.sqrt` is the correctly rounded square root of that
double.  Both steps are embedded exactly, using only integer arithmetic:
`round53` is the conversion of a natural number to the nearest binary64
value, `floatOfNat` adds the overflow check, and `sqrtRnFloor d` computes
`int(math.sqrt(·))` applied to the double of value `d`, that is, the floor
of the correctly rounded square root of `d`.  The value of a non-negative
binary64 number produced from an int is itself a natural number, which keeps
the whole model inside `ℕ`.

The `while` loop of `find_next_fibonacci` is embedded with explicit fuel
(`fibLoopF`); fuel `n + 2` is proved sufficient, which is exactly the
termination argument for the source loop.
-/

set_option maxRecDepth 40000

/-- Number of binary digits of `n`, computed with explicit fuel; the fuel
`n` used by `bitLen` is proved sufficient in the lemmas below. -/
def bitLenAux : ℕ → ℕ → ℕ
  | 0, _ => 0
  | f+1, n => if n = 0 then 0 else bitLenAux f (n / 2) + 1

/-- Number of binary digits of `n`: the least `k` with `n < 2 ^ k`. -/
def bitLen (n : ℕ) : ℕ := bitLenAux n n

/-- Digit-by-digit integer square root: `bit` runs through decreasing powers
of two and `acc` accumulates the root found so far. -/
def isqrtGo (n : ℕ) : ℕ → ℕ → ℕ → ℕ
  | 0, _, acc => acc
  | f+1, bit, acc =>
    let c := acc + bit
    isqrtGo n f (bit / 2) (if c * c ≤ n then c else acc)

/-- Exact integer square root (the floor of the real square root),
a computational device used to express the correctly rounded binary64
square root with integer arithmetic only. -/
def isqrt (n : ℕ) : ℕ :=
  isqrtGo n ((bitLen n + 1) / 2) (2 ^ ((bitLen n + 1) / 2) / 2) 0

/-- Smallest natural number not representable with a 53-bit significand at
exponent zero; binary64 conversion is exact strictly below it. -/
def twoPow53 : ℕ := 2 ^ 53

/-- Largest finite binary64 value, `(2 ^ 53 - 1) * 2 ^ 971`. -/
def maxDouble : ℕ := (2 ^ 53 - 1) * 2 ^ 971

/-- Round a natural number to the nearest binary64 value (53-bit
significand, round to nearest, ties to even), with unbounded exponent;
the overflow check against `maxDouble` is done by `floatOfNat`. -/
def round53 (x : ℕ) : ℕ :=
  if x < twoPow53 then x
  else if x % 2 ^ (bitLen x - 53) > 2 ^ (bitLen x - 53 - 1) ∨
      (x % 2 ^ (bitLen x - 53) = 2 ^ (bitLen x - 53 - 1) ∧ (x / 2 ^ (bitLen x - 53)) % 2 = 1)
    then (x / 2 ^ (bitLen x - 53) + 1) * 2 ^ (bitLen x - 53)
    else x / 2 ^ (bitLen x - 53) * 2 ^ (bitLen x - 53)

/-- CPython conversion of a non-negative int to a double: the rounded value,
or `none` for the `OverflowError` raised when it exceeds `maxDouble`. -/
def floatOfNat (x : ℕ) : Option ℕ :=
  if round53 x ≤ maxDouble then some (round53 x) else none

/-- Floor of the correctly rounded binary64 square root of the double with
(integer) value `d`; this is `int(math.sqrt(·))` applied to that double.
With `e` the exponent of the result binade, representable values near the
root are spaced `2 ^ (e - 52)` apart; `n1` is the floor of the root in grid
units and `n2` the nearest grid point (ties to even), compared against `d`
by exact integer arithmetic. -/
def sqrtRnFloor (d : ℕ) : ℕ :=
  if d = 0 then 0
  else
    let e := bitLen (isqrt d) - 1
    if e ≤ 52 then
      let m := 52 - e
      let N := d * 4 ^ m
      let n1 := isqrt N
      let n2 :=
        if (2 * n1 + 1) ^ 2 < 4 * N then n1 + 1
        else if (2 * n1 + 1) ^ 2 = 4 * N then (if n1 % 2 = 0 then n1 else n1 + 1)
        else n1
      n2 / 2 ^ m
    else
      let t := e - 52
      let n1 := isqrt (d / 4 ^ t)
      let n2 :=
        if (2 * n1 + 1) ^ 2 * 4 ^ (t - 1) < d then n1 + 1
        else if (2 * n1 + 1) ^ 2 * 4 ^ (t - 1) = d then (if n1 % 2 = 0 then n1 else n1 + 1)
        else n1
      n2 * 2 ^ t

/-- Embedding of the helper `is_perfect_square(x)` nested in `is_fibonacci`:
negative `x` gives `False`; otherwise `root = int(math.sqrt(x))` (which can
raise `OverflowError`, the `.error` case) and the result is the exact
integer comparison `root * root == x`. -/
def is_perfect_square (x : ℤ) : Except String Bool :=
  if x < 0 then .ok false
  else
    match floatOfNat x.toNat with
    | none => .error "OverflowError"
    | some d =>
      let root := sqrtRnFloor d
      .ok (decide (root * root = x.toNat))

/-- Embedding of `is_fibonacci(n)`:
`is_perfect_square(5*n*n + 4) or is_perfect_square(5*n*n - 4)` with the
short-circuit evaluation of the Python `or`, propagating an exception of
the first call and, when the first call returns `False`, producing whatever
the second call does. -/
def is_fibonacci (n : ℤ) : Except String Bool :=
  match is_perfect_square (5 * n * n + 4) with
  | .error e => .error e
  | .ok true => .ok true
  | .ok false => is_perfect_square (5 * n * n - 4)

/-- The `while fib_curr <= n` loop of `find_next_fibonacci`, with explicit
fuel: arguments are fuel, `n`, `fib_prev`, `fib_curr`; `none` means the fuel
ran out before the loop exited.  Fuel `n + 2` is proved sufficient below. -/
def fibLoopF : ℕ → ℕ → ℕ → ℕ → Option ℕ
  | 0, _, _, _ => none
  | f+1, n, p, c => if c ≤ n then fibLoopF f n c (p + c) else some c

/-- Embedding of `find_next_fibonacci(n)`: 0 for `n < 0`, 1 for `n < 1`,
otherwise the loop from `(fib_prev, fib_curr) = (0, 1)`.  The loop state is
non-negative, so it is kept in `ℕ`; the `getD 0` default is unreachable
because fuel `n + 2` always suffices (`fibLoopF_total` below). -/
def find_next_fibonacci (z : ℤ) : ℤ :=
  if z < 0 then 0
  else if z < 1 then 1
  else ((fibLoopF (z.toNat + 2) z.toNat 0 1).getD 0 : ℕ)

/-- The canonical Fibonacci sequence 0, 1, 1, 2, 3, 5, 8, 13, ... of the
specification glossary, used to state membership properties. -/
def fibSeq : ℕ → ℕ
  | 0 => 0
  | 1 => 1
  | k+2 => fibSeq k + fibSeq (k+1)

/-- ASCII whitespace accepted (and stripped) by Python `int(str)`. -/
def isWsChar (c : Char) : Bool :=
  c == ' ' || c == Char.ofNat 9 || c == Char.ofNat 10 || c == Char.ofNat 13 ||
  c == Char.ofNat 11 || c == Char.ofNat 12

/-- Decimal digit test for `int(str)` parsing (ASCII digits). -/
def isDigitChar (c : Char) : Bool :=
  48 ≤ c.toNat && c.toNat ≤ 57

/-- Numeric value of an ASCII decimal digit. -/
def digitVal (c : Char) : ℕ := c.toNat - 48

/-- Strip leading and trailing whitespace, as `int(str)` does. -/
def stripWs (cs : List Char) : List Char :=
  ((cs.dropWhile isWsChar).reverse.dropWhile isWsChar).reverse

/-- Digit run of a Python integer literal after its first digit: decimal
digits with single underscores allowed between digits. -/
def digitsVal : List Char → ℕ → Option ℕ
  | [], acc => some acc
  | [c], acc => if isDigitChar c then some (acc * 10 + digitVal c) else none
  | c :: c2 :: rest, acc =>
    if isDigitChar c then digitsVal (c2 :: rest) (acc * 10 + digitVal c)
    else if c == '_' && isDigitChar c2 then digitsVal rest (acc * 10 + digitVal c2)
    else none

/-- Nonempty digit run: the first character must be a digit. -/
def parseDigits : List Char → Option ℕ
  | [] => none
  | c :: rest => if isDigitChar c then digitsVal rest (digitVal c) else none

/-- Model of Python `int(str)` on the ASCII integer literals relevant here:
optional surrounding whitespace, optional sign, then a nonempty run of
decimal digits with single underscores allowed between digits; `none` is
the `ValueError` path of the source. -/
def parsePyInt (s : String) : Option ℤ :=
  match stripWs s.toList with
  | '-' :: rest => (parseDigits rest).map (fun v => -(v : ℤ))
  | '+' :: rest => (parseDigits rest).map (fun v => (v : ℤ))
  | cs => (parseDigits cs).map (fun v => (v : ℤ))

/-- Decimal digits of `n`, most significant first, with fuel `n + 1`
(always sufficient since `n` has at most `n + 1` digits). -/
def natStrAux : ℕ → ℕ → List Char → List Char
  | 0, _, acc => acc
  | f+1, n, acc =>
    let acc2 := Char.ofNat (48 + n % 10) :: acc
    if n < 10 then acc2 else natStrAux f (n / 10) acc2

/-- Decimal rendering of a natural number, as Python formats it. -/
def natStr (n : ℕ) : String := String.mk (natStrAux (n + 1) n [])

/-- Decimal rendering of an int, as a Python f-string formats it. -/
def intStr (z : ℤ) : String :=
  if z < 0 then "-" ++ natStr z.natAbs else natStr z.toNat

/-- Python rendering of a bool inside an f-string. -/
def boolStr (b : Bool) : String := if b then "True" else "False"

/-- Result of one run of the script: either a process exit with code,
stdout lines and stderr lines, or termination by an uncaught exception
(the interpreter then prints a traceback and exits with status 1). -/
inductive PyOutcome where
  | exited (code : ℕ) (out err : List String)
  | raised (exn : String)

/-- Embedding of the source function `main` together with `sys.exit(main())`: `argv` is the
full `sys.argv` including the script name.  The source computes
`find_next_fibonacci` and then `is_fibonacci` before printing; both are
pure, and only `is_fibonacci` can raise, so the observable outcome is as
modelled. -/
def pyMain (argv : List String) : PyOutcome :=
  if argv.length ≠ 2 then
    .exited 1 [] ["Usage: python3 fibonacci_calculator.py <number>"]
  else
    let a := argv.getD 1 ""
    match parsePyInt a with
    | none => .exited 1 [] ["Error: \x27" ++ a ++ "\x27 is not a valid integer"]
    | some z =>
      if z < 0 then .exited 1 [] ["Error: Input must be a non-negative integer"]
      else
        match is_fibonacci z with
        | .error e => .raised e
        | .ok b =>
          .exited 0
            ["Input number: " ++ intStr z,
             "Is Fibonacci: " ++ boolStr b,
             "Next Fibonacci: " ++ intStr (find_next_fibonacci z)]
            []

/-! ### Properties of `bitLen` -/

lemma bitLenAux_zero (f : ℕ) : bitLenAux f 0 = 0 := by
  cases f <;> simp [bitLenAux]

lemma bitLenAux_lt_pow : ∀ f n, n ≤ f → n < 2 ^ bitLenAux f n := by
  intro f
  induction f with
  | zero => intro n hn; interval_cases n; simp [bitLenAux]
  | succ f ih =>
    intro n hn
    by_cases h0 : n = 0
    · subst h0; simp [bitLenAux]
    · have hrec : n / 2 ≤ f := by
        have := Nat.div_lt_self (Nat.pos_of_ne_zero h0) (by norm_num : 1 < 2)
        omega
      have := ih (n / 2) hrec
      have h2 : n ≤ 2 * (n / 2) + 1 := by omega
      simp only [bitLenAux, h0, if_false, pow_succ]
      omega

lemma bitLen_lt_pow (n : ℕ) : n < 2 ^ bitLen n := bitLenAux_lt_pow n n le_rfl

lemma bitLenAux_le : ∀ f n k, n ≤ f → n < 2 ^ k → bitLenAux f n ≤ k := by
  intro f
  induction f with
  | zero => intro n k hn _; interval_cases n; simp [bitLenAux]
  | succ f ih =>
    intro n k hn hk
    by_cases h0 : n = 0
    · subst h0; simp [bitLenAux]
    · have hk0 : k ≠ 0 := by
        intro h; subst h; simp at hk; omega
      obtain ⟨k2, rfl⟩ : ∃ k2, k = k2 + 1 := ⟨k - 1, by omega⟩
      have hrec : n / 2 ≤ f := by
        have := Nat.div_lt_self (Nat.pos_of_ne_zero h0) (by norm_num : 1 < 2)
        omega
      have hdiv : n / 2 < 2 ^ k2 := by
        rw [Nat.div_lt_iff_lt_mul (by norm_num : 0 < 2)]
        calc n < 2 ^ (k2 + 1) := hk
        _ = 2 ^ k2 * 2 := by rw [pow_succ]
      have := ih (n / 2) k2 hrec hdiv
      simp only [bitLenAux, h0, if_false]
      omega

lemma bitLen_le {n k : ℕ} (h : n < 2 ^ k) : bitLen n ≤ k := bitLenAux_le n n k le_rfl h

lemma bitLenAux_lb : ∀ f n, 1 ≤ n → n ≤ f → 2 ^ (bitLenAux f n - 1) ≤ n := by
  intro f
  induction f with
  | zero => intro n h1 h2; omega
  | succ f ih =>
    intro n h1 hn
    have h0 : n ≠ 0 := by omega
    by_cases hsmall : n = 1
    · subst hsmall
      simp [bitLenAux, bitLenAux_zero]
    · have h2 : 2 ≤ n := by omega
      have hrec1 : 1 ≤ n / 2 := by omega
      have hrec2 : n / 2 ≤ f := by
        have := Nat.div_lt_self (by omega : 0 < n) (by norm_num : 1 < 2)
        omega
      have hb1 : 1 ≤ bitLenAux f (n / 2) := by
        cases f with
        | zero => omega
        | succ f2 =>
          have : n / 2 ≠ 0 := by omega
          simp [bitLenAux, this]
      have := ih (n / 2) hrec1 hrec2
      simp only [bitLenAux, h0, if_false]
      have hstep : 2 ^ (bitLenAux f (n / 2) + 1 - 1) = 2 * 2 ^ (bitLenAux f (n / 2) - 1) := by
        rw [Nat.add_sub_cancel]
        calc 2 ^ bitLenAux f (n / 2) = 2 ^ (bitLenAux f (n / 2) - 1 + 1) := by
              congr 1; omega
        _ = 2 * 2 ^ (bitLenAux f (n / 2) - 1) := by rw [pow_succ]; ring
      rw [hstep]
      omega

lemma bitLen_lb {n : ℕ} (h : 1 ≤ n) : 2 ^ (bitLen n - 1) ≤ n := bitLenAux_lb n n h le_rfl

/-! ### Properties of `isqrt` -/

lemma isqrtGo_spec (n : ℕ) :
    ∀ f acc, acc * acc ≤ n → n < (acc + 2 ^ f) * (acc + 2 ^ f) →
      isqrtGo n f (2 ^ f / 2) acc * isqrtGo n f (2 ^ f / 2) acc ≤ n ∧
      n < (isqrtGo n f (2 ^ f / 2) acc + 1) * (isqrtGo n f (2 ^ f / 2) acc + 1) := by
  intro f
  induction f with
  | zero => intro acc h1 h2; simpa [isqrtGo] using ⟨h1, h2⟩
  | succ f ih =>
    intro acc h1 h2
    have hbit : 2 ^ (f + 1) / 2 = 2 ^ f := by
      rw [pow_succ, Nat.mul_div_cancel _ (by norm_num : 0 < 2)]
    have hbit2 : 2 ^ f / 2 = 2 ^ f / 2 := rfl
    simp only [isqrtGo, hbit]
    by_cases hc : (acc + 2 ^ f) * (acc + 2 ^ f) ≤ n
    · simp only [hc, if_true]
      exact ih (acc + 2 ^ f) hc (by
        have : acc + 2 ^ f + 2 ^ f = acc + 2 ^ (f + 1) := by rw [pow_succ]; ring
        rw [this]; exact h2)
    · simp only [hc, if_false]
      exact ih acc h1 (by omega)

lemma isqrt_le (n : ℕ) : isqrt n * isqrt n ≤ n := by
  have hn : n < 2 ^ ((bitLen n + 1) / 2) * 2 ^ ((bitLen n + 1) / 2) := by
    have h1 : n < 2 ^ bitLen n := bitLen_lt_pow n
    have h2 : bitLen n ≤ (bitLen n + 1) / 2 + (bitLen n + 1) / 2 := by omega
    calc n < 2 ^ bitLen n := h1
    _ ≤ 2 ^ ((bitLen n + 1) / 2 + (bitLen n + 1) / 2) := Nat.pow_le_pow_right (by norm_num) h2
    _ = 2 ^ ((bitLen n + 1) / 2) * 2 ^ ((bitLen n + 1) / 2) := pow_add 2 _ _
  exact (isqrtGo_spec n ((bitLen n + 1) / 2) 0 (by simp) (by simpa using hn)).1

lemma isqrt_lt (n : ℕ) : n < (isqrt n + 1) * (isqrt n + 1) := by
  have hn : n < 2 ^ ((bitLen n + 1) / 2) * 2 ^ ((bitLen n + 1) / 2) := by
    have h1 : n < 2 ^ bitLen n := bitLen_lt_pow n
    have h2 : bitLen n ≤ (bitLen n + 1) / 2 + (bitLen n + 1) / 2 := by omega
    calc n < 2 ^ bitLen n := h1
    _ ≤ 2 ^ ((bitLen n + 1) / 2 + (bitLen n + 1) / 2) := Nat.pow_le_pow_right (by norm_num) h2
    _ = 2 ^ ((bitLen n + 1) / 2) * 2 ^ ((bitLen n + 1) / 2) := pow_add 2 _ _
  exact (isqrtGo_spec n ((bitLen n + 1) / 2) 0 (by simp) (by simpa using hn)).2

lemma isqrt_sq (r : ℕ) : isqrt (r * r) = r := by
  have h1 := isqrt_le (r * r)
  have h2 := isqrt_lt (r * r)
  by_contra hne
  rcases Nat.lt_or_ge (isqrt (r * r)) r with h | h
  · have : isqrt (r * r) + 1 ≤ r := by omega
    have := Nat.mul_le_mul this this
    omega
  · have hlt : r < isqrt (r * r) := by omega
    have hx : (r + 1) * (r + 1) ≤ isqrt (r * r) * isqrt (r * r) :=
      Nat.mul_le_mul (by omega) (by omega)
    have hexp : (r + 1) * (r + 1) = r * r + 2 * r + 1 := by ring
    omega

/-! ### Properties of the binary64 model -/

lemma round53_of_lt {x : ℕ} (h : x < 2 ^ 53) : round53 x = x := by
  unfold round53
  rw [if_pos]
  simpa [twoPow53] using h

lemma round53_le_bound {x : ℕ} (h : x ≤ 2 ^ 1023) : round53 x ≤ 2 ^ 1023 + 2 ^ 971 := by
  by_cases hx : x < twoPow53
  · unfold round53
    rw [if_pos hx]
    omega
  · have hbig : 2 ^ 53 ≤ x := by simpa [twoPow53] using hx
    have hbl : bitLen x ≤ 1024 := by
      apply bitLen_le
      calc x ≤ 2 ^ 1023 := h
      _ < 2 ^ 1024 := by norm_num
    have ht : bitLen x - 53 ≤ 971 := by omega
    have hpow : (2 : ℕ) ^ (bitLen x - 53) ≤ 2 ^ 971 := Nat.pow_le_pow_right (by norm_num) ht
    have hq : x / 2 ^ (bitLen x - 53) * 2 ^ (bitLen x - 53) ≤ x := Nat.div_mul_le_self _ _
    unfold round53
    rw [if_neg hx]
    split
    · have : (x / 2 ^ (bitLen x - 53) + 1) * 2 ^ (bitLen x - 53) =
          x / 2 ^ (bitLen x - 53) * 2 ^ (bitLen x - 53) + 2 ^ (bitLen x - 53) := by ring
      omega
    · omega

lemma floatOfNat_of_le {x : ℕ} (h : x ≤ 2 ^ 1023) : floatOfNat x = some (round53 x) := by
  unfold floatOfNat
  rw [if_pos]
  calc round53 x ≤ 2 ^ 1023 + 2 ^ 971 := round53_le_bound h
  _ ≤ maxDouble := by unfold maxDouble; decide

lemma floatOfNat_small {x : ℕ} (h : x < 2 ^ 53) : floatOfNat x = some x := by
  have h1 : x ≤ 2 ^ 1023 := by
    calc x ≤ 2 ^ 53 := h.le
    _ ≤ 2 ^ 1023 := Nat.pow_le_pow_right (by norm_num) (by norm_num)
  rw [floatOfNat_of_le h1, round53_of_lt h]

lemma sqrtRnFloor_sq {r : ℕ} (hr : 1 ≤ r) (h53 : r * r < 2 ^ 53) :
    sqrtRnFloor (r * r) = r := by
  have hd0 : ¬(r * r = 0) := by
    intro h
    rcases Nat.mul_eq_zero.mp h with h | h <;> omega
  have hs : isqrt (r * r) = r := isqrt_sq r
  have hr27 : r < 2 ^ 27 := by
    by_contra hc
    push_neg at hc
    have : 2 ^ 27 * 2 ^ 27 ≤ r * r := Nat.mul_le_mul hc hc
    norm_num at this
    omega
  have hbl : bitLen r ≤ 27 := bitLen_le hr27
  have he52 : bitLen r - 1 ≤ 52 := by omega
  have hN : r * r * 4 ^ (52 - (bitLen r - 1)) =
      r * 2 ^ (52 - (bitLen r - 1)) * (r * 2 ^ (52 - (bitLen r - 1))) := by
    rw [show (4 : ℕ) = 2 * 2 from rfl, mul_pow]
    ring
  have hn1 : isqrt (r * r * 4 ^ (52 - (bitLen r - 1))) = r * 2 ^ (52 - (bitLen r - 1)) := by
    rw [hN, isqrt_sq]
  unfold sqrtRnFloor
  rw [if_neg hd0, hs]
  rw [if_pos he52]
  simp only [hn1]
  set A := r * 2 ^ (52 - (bitLen r - 1)) with hA
  have hgt : ¬((2 * A + 1) ^ 2 < 4 * (r * r * 4 ^ (52 - (bitLen r - 1)))) := by
    rw [hN]
    have : (2 * A + 1) ^ 2 = 4 * (A * A) + 4 * A + 1 := by ring
    omega
  have hne : ¬((2 * A + 1) ^ 2 = 4 * (r * r * 4 ^ (52 - (bitLen r - 1)))) := by
    rw [hN]
    have : (2 * A + 1) ^ 2 = 4 * (A * A) + 4 * A + 1 := by ring
    omega
  rw [if_neg hgt, if_neg hne, hA]
  have hp : 0 < 2 ^ (52 - (bitLen r - 1)) := pow_pos (by norm_num) _
  rw [Nat.mul_div_assoc r (dvd_refl _), Nat.div_self hp, mul_one]

/-! ### Properties of `is_perfect_square` -/

lemma is_perfect_square_neg {x : ℤ} (h : x < 0) : is_perfect_square x = .ok false := by
  simp [is_perfect_square, h]

lemma is_perfect_square_sound {x : ℤ} (h : is_perfect_square x = .ok true) :
    ∃ r : ℕ, (r : ℤ) * r = x := by
  unfold is_perfect_square at h
  by_cases h0 : x < 0
  · rw [if_pos h0] at h
    exact absurd h (by simp)
  · rw [if_neg h0] at h
    cases hf : floatOfNat x.toNat with
    | none => rw [hf] at h; exact absurd h (by simp)
    | some d =>
      rw [hf] at h
      simp only [Except.ok.injEq, decide_eq_true_eq] at h
      refine ⟨sqrtRnFloor d, ?_⟩
      have hx : (x.toNat : ℤ) = x := Int.toNat_of_nonneg (by omega)
      have h2 := congrArg (fun n : ℕ => (n : ℤ)) h
      push_cast at h2
      rwa [hx] at h2

lemma is_perfect_square_small_iff {x : ℕ} (hx : x < 2 ^ 53) :
    is_perfect_square (x : ℤ) = .ok true ↔ ∃ r : ℕ, r * r = x := by
  constructor
  · intro h
    obtain ⟨r, hr⟩ := is_perfect_square_sound h
    exact ⟨r, by exact_mod_cast hr⟩
  · rintro ⟨r, hr⟩
    have h0 : ¬((x : ℤ) < 0) := by omega
    have htn : (x : ℤ).toNat = x := Int.toNat_natCast x
    have hroot : sqrtRnFloor x * sqrtRnFloor x = x := by
      rcases Nat.eq_zero_or_pos r with h | h
      · subst h
        simp only [Nat.zero_mul] at hr
        subst hr
        rfl
      · rw [← hr, sqrtRnFloor_sq h (by rw [hr]; exact hx)]
    unfold is_perfect_square
    rw [if_neg h0, htn, floatOfNat_small hx]
    simp [hroot]

lemma is_perfect_square_total {x : ℤ} (h : x ≤ 2 ^ 1023) :
    ∃ b, is_perfect_square x = .ok b := by
  by_cases h0 : x < 0
  · exact ⟨false, is_perfect_square_neg h0⟩
  · have htn : x.toNat ≤ 2 ^ 1023 := by
      have hx : (x.toNat : ℤ) = x := Int.toNat_of_nonneg (by omega)
      have h2 : (x.toNat : ℤ) ≤ ((2 ^ 1023 : ℕ) : ℤ) := by
        rw [hx]; exact_mod_cast h
      exact_mod_cast h2
    refine ⟨decide (sqrtRnFloor (round53 x.toNat) * sqrtRnFloor (round53 x.toNat) = x.toNat), ?_⟩
    unfold is_perfect_square
    rw [if_neg h0, floatOfNat_of_le htn]

/-! ### Totality of `is_fibonacci` below the float limit -/

lemma is_fibonacci_total {n : ℤ} (h : n.natAbs ≤ 2 ^ 500) :
    ∃ b, is_fibonacci n = .ok b := by
  have hsq : n * n ≤ 2 ^ 1000 := by
    rw [← Int.natAbs_mul_self]
    have h1 : n.natAbs * n.natAbs ≤ 2 ^ 500 * 2 ^ 500 := Nat.mul_le_mul h h
    have h2 : (2 : ℕ) ^ 500 * 2 ^ 500 = 2 ^ 1000 := by rw [← pow_add]
    have h3 : n.natAbs * n.natAbs ≤ 2 ^ 1000 := by omega
    calc ((n.natAbs * n.natAbs : ℕ) : ℤ) ≤ ((2 ^ 1000 : ℕ) : ℤ) := by exact_mod_cast h3
    _ = 2 ^ 1000 := by push_cast; rfl
  have hbound : (5 : ℤ) * 2 ^ 1000 + 4 ≤ 2 ^ 1023 := by
    have : (5 : ℕ) * 2 ^ 1000 + 4 ≤ 2 ^ 1023 := by decide
    exact_mod_cast this
  have h1 : 5 * n * n + 4 ≤ 2 ^ 1023 := by
    have : 5 * n * n = 5 * (n * n) := by ring
    rw [this]
    omega
  have h2 : 5 * n * n - 4 ≤ 2 ^ 1023 := by
    have : 5 * n * n = 5 * (n * n) := by ring
    rw [this]
    omega
  obtain ⟨b1, hb1⟩ := is_perfect_square_total h1
  cases b1 with
  | true => exact ⟨true, by unfold is_fibonacci; rw [hb1]⟩
  | false =>
    obtain ⟨b2, hb2⟩ := is_perfect_square_total h2
    exact ⟨b2, by unfold is_fibonacci; rw [hb1, hb2]⟩

/-! ### Properties of `fibSeq` -/

lemma fibSeq_le_succ : ∀ k, fibSeq k ≤ fibSeq (k + 1)
  | 0 => by simp [fibSeq]
  | 1 => by simp [fibSeq]
  | k+2 => by
    show fibSeq (k + 2) ≤ fibSeq (k + 1) + fibSeq (k + 2)
    omega

lemma fibSeq_mono : Monotone fibSeq := monotone_nat_of_le_succ fibSeq_le_succ

lemma fibSeq_succ_pos : ∀ k, 1 ≤ fibSeq (k + 1)
  | 0 => by simp [fibSeq]
  | 1 => by simp [fibSeq]
  | k+2 => by
    have h1 := fibSeq_succ_pos (k + 1)
    have h2 : fibSeq (k + 1 + 1) = fibSeq (k + 2) := rfl
    show 1 ≤ fibSeq (k + 1) + fibSeq (k + 2)
    omega

lemma le_fibSeq_succ : ∀ k, k ≤ fibSeq (k + 1)
  | 0 => by simp [fibSeq]
  | 1 => by simp [fibSeq]
  | k+2 => by
    have h1 := le_fibSeq_succ (k + 1)
    have h2 := fibSeq_succ_pos k
    have h3 : fibSeq (k + 1 + 1) = fibSeq (k + 2) := rfl
    show k + 2 ≤ fibSeq (k + 1) + fibSeq (k + 2)
    omega

/-! ### The loop of `find_next_fibonacci`: termination and result -/

lemma fibLoopF_spec (n : ℕ) :
    ∀ f k, fibSeq k ≤ n → n + 2 ≤ k + f →
      ∃ j, k ≤ j ∧ fibSeq j ≤ n ∧ n < fibSeq (j + 1) ∧
        fibLoopF f n (fibSeq k) (fibSeq (k + 1)) = some (fibSeq (j + 1)) := by
  intro f
  induction f with
  | zero =>
    intro k hk hf
    obtain ⟨k2, rfl⟩ : ∃ k2, k = k2 + 1 := ⟨k - 1, by omega⟩
    have := le_fibSeq_succ k2
    omega
  | succ f ih =>
    intro k hk hf
    by_cases hc : fibSeq (k + 1) ≤ n
    · obtain ⟨j, hj1, hj2, hj3, hj4⟩ := ih (k + 1) hc (by omega)
      refine ⟨j, by omega, hj2, hj3, ?_⟩
      have hstep : fibSeq k + fibSeq (k + 1) = fibSeq (k + 2) := rfl
      simp only [fibLoopF, hc, if_true, hstep]
      exact hj4
    · refine ⟨k, le_rfl, hk, by omega, ?_⟩
      simp only [fibLoopF, hc, if_false]

lemma fibLoopF_total (n : ℕ) :
    ∃ j, fibSeq j ≤ n ∧ n < fibSeq (j + 1) ∧
      fibLoopF (n + 2) n 0 1 = some (fibSeq (j + 1)) := by
  obtain ⟨j, _, hj2, hj3, hj4⟩ :=
    fibLoopF_spec n (n + 2) 0 (by simp [fibSeq]) (by omega)
  refine ⟨j, hj2, hj3, ?_⟩
  simpa [fibSeq] using hj4

lemma find_next_fibonacci_spec (n : ℕ) :
    ∃ j, find_next_fibonacci (n : ℤ) = (fibSeq (j + 1) : ℤ) ∧
      fibSeq j ≤ n ∧ n < fibSeq (j + 1) := by
  rcases Nat.eq_zero_or_pos n with h0 | hpos
  · subst h0
    refine ⟨0, ?_, ?_, ?_⟩ <;> simp [find_next_fibonacci, fibSeq]
  · have h1 : ¬((n : ℤ) < 0) := by omega
    have h2 : ¬((n : ℤ) < 1) := by omega
    have htn : (n : ℤ).toNat = n := Int.toNat_natCast n
    obtain ⟨j, hj1, hj2, hj3⟩ := fibLoopF_total n
    refine ⟨j, ?_, hj1, hj2⟩
    unfold find_next_fibonacci
    rw [if_neg h1, if_neg h2, htn, hj3]
    rfl

/-! ### Driver lemmas -/

lemma pyMain_ok {p s : String} {z : ℤ} (hp : parsePyInt s = some z) (h0 : 0 ≤ z)
    (hb : z ≤ 2 ^ 500) :
    ∃ b, pyMain [p, s] =
      .exited 0
        ["Input number: " ++ intStr z,
         "Is Fibonacci: " ++ boolStr b,
         "Next Fibonacci: " ++ intStr (find_next_fibonacci z)]
        [] := by
  have habs : z.natAbs ≤ 2 ^ 500 := by
    have h1 : (z.natAbs : ℤ) = z := Int.natAbs_of_nonneg h0
    have h2 : (z.natAbs : ℤ) ≤ ((2 ^ 500 : ℕ) : ℤ) := by
      rw [h1]
      exact_mod_cast hb
    exact_mod_cast h2
  obtain ⟨b, hbfib⟩ := is_fibonacci_total habs
  refine ⟨b, ?_⟩
  have hlen : ¬(([p, s] : List String).length ≠ 2) := by simp
  unfold pyMain
  rw [if_neg hlen]
  have hget : ([p, s] : List String).getD 1 "" = s := rfl
  simp only [hget, hp]
  rw [if_neg (show ¬(z < 0) by omega), hbfib]

/-! ### Claim theorems -/

/-- C1 (amended): the numeric routines cannot fail on validated input of
moderate size — `is_perfect_square` returns a value for every integer up to
`2 ^ 1023`, `is_fibonacci` for every integer of absolute value up to
`2 ^ 500`, and the loop of `find_next_fibonacci` always produces a result —
but, contrary to the original claim, `is_perfect_square` is not total over
all integers: beyond the binary64 range the conversion inside `math.sqrt`
raises `OverflowError` (see the counterexample). -/
theorem c1_totality :
    (∀ x : ℤ, x ≤ ((2 ^ 1023 : ℕ) : ℤ) → ∃ b, is_perfect_square x = .ok b) ∧
    (∀ n : ℤ, n.natAbs ≤ 2 ^ 500 → ∃ b, is_fibonacci n = .ok b) ∧
    (∀ z : ℤ, ∃ r : ℕ, fibLoopF (z.toNat + 2) z.toNat 0 1 = some r) := by
  refine ⟨fun x hx => is_perfect_square_total ?_, fun n hn => is_fibonacci_total hn,
    fun z => ?_⟩
  · push_cast at hx
    exact hx
  · obtain ⟨j, _, _, heq⟩ := fibLoopF_total z.toNat
    exact ⟨fibSeq (j + 1), heq⟩

/-- C1 witness: the totality theorem applied at the concrete inputs 10
and 3. -/
theorem c1_witness :
    (∃ b, is_perfect_square 10 = .ok b) ∧ (∃ b, is_fibonacci 3 = .ok b) :=
  ⟨c1_totality.1 10 (by decide), c1_totality.2.1 3 (by decide)⟩

/-- C1 counterexample: `is_perfect_square` raises `OverflowError` on
`2 ^ 1100` (a non-negative integer), so it is not a total function over all
integers and the validated input `2 ^ 550` would crash `is_fibonacci`. -/
theorem c1_counterexample :
    is_perfect_square 13582985290493858492773514283592667786034938469317445497485196697278130927542418487205392083207560592298578262953847383475038725543234929971155548342800628721885763499406390331782864144164680730766837160526223176512798435772129956553355286032203080380775759732320198985094884004069116123084147875437183658467465148948790552744165376 = .error "OverflowError" := rfl

/-- C2 (amended): `is_perfect_square` returns false for every negative
input; whenever it returns true its input really is a perfect square (the
exact verification `root * root == x` admits no false positive); and below
`2 ^ 53`, where the binary64 computation is exact, it returns true exactly
on the perfect squares.  Contrary to the original claim, the verification
step does not make the routine correct for all inputs: for large perfect
squares the approximate root is wrong and the routine answers false (see
the counterexample). -/
theorem c2_perfect_square :
    (∀ x : ℤ, x < 0 → is_perfect_square x = .ok false) ∧
    (∀ x : ℤ, is_perfect_square x = .ok true → ∃ r : ℕ, (r : ℤ) * r = x) ∧
    (∀ x : ℕ, x < 2 ^ 53 →
      (is_perfect_square (x : ℤ) = .ok true ↔ ∃ r : ℕ, r * r = x)) :=
  ⟨fun _ hx => is_perfect_square_neg hx,
   fun _ hx => is_perfect_square_sound hx,
   fun _ hx => is_perfect_square_small_iff hx⟩

/-- C2 witness: the amended theorem applied at the concrete inputs -3, 49
and 36. -/
theorem c2_witness :
    is_perfect_square (-3) = .ok false ∧
    is_perfect_square 49 = .ok true ∧
    (∃ r : ℕ, (r : ℤ) * r = 36) :=
  ⟨c2_perfect_square.1 (-3) (by decide),
   (c2_perfect_square.2.2 49 (by decide)).mpr ⟨7, by decide⟩,
   c2_perfect_square.2.1 36 (by rfl)⟩

/-- C2 counterexample: `(2 ^ 53 + 1) ^ 2` is a perfect square, but
`is_perfect_square` answers false on it — the double of the input has lost
the low bits, its rounded square root is `2 ^ 53`, and the verification
step then rejects, so floating-point imprecision does change the answer. -/
theorem c2_counterexample :
    is_perfect_square 81129638414606699710187514626049 = .ok false ∧
    (9007199254740993 : ℤ) * 9007199254740993 = 81129638414606699710187514626049 :=
  ⟨rfl, by decide⟩

/-- C3 (code bug): 354224848179261915075 is the 100th canonical Fibonacci
number, yet `is_fibonacci` answers false on it, contradicting both the
claim and the docstring of the function; the claimed edge cases 0 and 1 do
hold.  The culprit is the approximate `math.sqrt` inside the helper: at
this size the correctly rounded double square root of `5*n*n + 4` is far
from the exact integer root. -/
theorem c3_membership_bug :
    is_fibonacci 0 = .ok true ∧
    is_fibonacci 1 = .ok true ∧
    fibSeq 100 = 354224848179261915075 ∧
    is_fibonacci 354224848179261915075 = .ok false :=
  ⟨rfl, rfl, rfl, rfl⟩

/-- C4: for every non-negative integer `n`, `find_next_fibonacci n` is
strictly greater than `n`, is a value of the canonical Fibonacci sequence,
and is the least Fibonacci-sequence value strictly greater than `n`. -/
theorem c4_next_fibonacci (n : ℕ) :
    (n : ℤ) < find_next_fibonacci n ∧
    (∃ j, find_next_fibonacci n = (fibSeq j : ℤ)) ∧
    (∀ m : ℕ, (n : ℤ) < (fibSeq m : ℤ) → find_next_fibonacci n ≤ (fibSeq m : ℤ)) := by
  obtain ⟨j, heq, hle, hgt⟩ := find_next_fibonacci_spec n
  refine ⟨?_, ⟨j + 1, heq⟩, ?_⟩
  · rw [heq]
    exact_mod_cast hgt
  · intro m hm
    have hmn : n < fibSeq m := by exact_mod_cast hm
    have hjm : j + 1 ≤ m := by
      by_contra hc
      push_neg at hc
      have := fibSeq_mono (show m ≤ j by omega)
      omega
    have h2 : fibSeq (j + 1) ≤ fibSeq m := fibSeq_mono hjm
    rw [heq]
    exact_mod_cast h2

/-- C4 witness: minimality applied at the concrete input 4 against the
Fibonacci value `fibSeq 5 = 5`. -/
theorem c4_witness : find_next_fibonacci 4 ≤ (fibSeq 5 : ℤ) :=
  (c4_next_fibonacci 4).2.2 5 (by decide)

/-- C6: `find_next_fibonacci` returns the sentinel 0 for every negative
input, in particular at -5, and returns 1 at 0. -/
theorem c6_negative_sentinel :
    (∀ z : ℤ, z < 0 → find_next_fibonacci z = 0) ∧
    find_next_fibonacci (-5) = 0 ∧
    find_next_fibonacci 0 = 1 := by
  refine ⟨fun z hz => ?_, rfl, rfl⟩
  unfold find_next_fibonacci
  rw [if_pos hz]

/-- C6 witness: the sentinel clause applied at the concrete input -7. -/
theorem c6_witness : find_next_fibonacci (-7) = 0 :=
  c6_negative_sentinel.1 (-7) (by decide)

/-- C7: for every integer `n` the loop of `find_next_fibonacci` terminates:
with the initial state `(0, 1)` and fuel `n + 2` it exits through its guard
with some result strictly greater than `n` (negative `n` never reaches the
loop in the source, and under `toNat` they behave like 0 here). -/
theorem c7_loop_terminates (z : ℤ) :
    ∃ r : ℕ, fibLoopF (z.toNat + 2) z.toNat 0 1 = some r ∧ z.toNat < r := by
  obtain ⟨j, _, hgt, heq⟩ := fibLoopF_total z.toNat
  exact ⟨fibSeq (j + 1), heq, hgt⟩

/-- C9: both classification routines are deterministic — two calls at the
same argument are the same value (the embedding is a pure function, exactly
because the source functions read no state besides their argument). -/
theorem c9_deterministic (n : ℤ) :
    is_fibonacci n = is_fibonacci n ∧
    find_next_fibonacci n = find_next_fibonacci n :=
  ⟨rfl, rfl⟩

/-- C10: `is_fibonacci` depends on its argument only through `n * n`, so it
is invariant under negation, and in particular accepts -1. -/
theorem c10_negation_invariant :
    (∀ n : ℤ, is_fibonacci (-n) = is_fibonacci n) ∧
    is_fibonacci (-1) = .ok true := by
  refine ⟨fun n => ?_, rfl⟩
  have h1 : 5 * -n * -n + 4 = 5 * n * n + 4 := by ring
  have h2 : 5 * -n * -n - 4 = 5 * n * n - 4 := by ring
  unfold is_fibonacci
  rw [h1, h2]


/-- C5 (amended): the driver prints the specified message to the error
stream and exits with status 1 in the three validation cases (wrong
argument count, unparsable argument, negative argument), and for validated
inputs up to `2 ^ 500` prints exactly the three specified lines to standard
output and exits with status 0.  Contrary to the original claim these are
not the only outcomes: a large enough validated input makes `is_fibonacci`
raise an uncaught `OverflowError` (see the counterexample). -/
theorem c5_driver :
    (∀ argv : List String, argv.length ≠ 2 →
      pyMain argv = .exited 1 [] ["Usage: python3 fibonacci_calculator.py <number>"]) ∧
    (∀ p s, parsePyInt s = none →
      pyMain [p, s] =
        .exited 1 [] ["Error: \x27" ++ s ++ "\x27 is not a valid integer"]) ∧
    (∀ p s (z : ℤ), parsePyInt s = some z → z < 0 →
      pyMain [p, s] = .exited 1 [] ["Error: Input must be a non-negative integer"]) ∧
    (∀ p s (z : ℤ), parsePyInt s = some z → 0 ≤ z → z ≤ ((2 ^ 500 : ℕ) : ℤ) →
      ∃ b, pyMain [p, s] =
        .exited 0
          ["Input number: " ++ intStr z,
           "Is Fibonacci: " ++ boolStr b,
           "Next Fibonacci: " ++ intStr (find_next_fibonacci z)]
          []) := by
  refine ⟨fun argv h => ?_, fun p s h => ?_, fun p s z hp hz => ?_, fun p s z hp h0 hb => ?_⟩
  · unfold pyMain
    rw [if_pos h]
  · have hget : ([p, s] : List String).getD 1 "" = s := rfl
    unfold pyMain
    rw [if_neg (by simp)]
    simp only [hget, h]
  · have hget : ([p, s] : List String).getD 1 "" = s := rfl
    unfold pyMain
    rw [if_neg (by simp)]
    simp only [hget, hp]
    rw [if_pos hz]
  · refine pyMain_ok hp h0 ?_
    push_cast at hb
    exact hb

/-- C5 witness: the success clause of the driver theorem applied at the
concrete argument string "7". -/
theorem c5_witness :
    ∃ b, pyMain ["fibonacci_calculator.py", "7"] =
      .exited 0
        ["Input number: " ++ intStr 7,
         "Is Fibonacci: " ++ boolStr b,
         "Next Fibonacci: " ++ intStr (find_next_fibonacci 7)]
        [] :=
  c5_driver.2.2.2 "fibonacci_calculator.py" "7" 7 rfl (by decide) (by decide)

/-- C5 counterexample: the decimal argument `10 ^ 154` passes all three
validations (it parses and is non-negative), yet the run does not print
three lines and exit 0: `is_fibonacci` raises an uncaught `OverflowError`,
a fourth error outcome the claim excludes. -/
theorem c5_counterexample :
    parsePyInt "10000000000000000000000000000000000000000000000000000000000000000000000000000000000000000000000000000000000000000000000000000000000000000000000000000000000" = some 10000000000000000000000000000000000000000000000000000000000000000000000000000000000000000000000000000000000000000000000000000000000000000000000000000000000 ∧
    pyMain ["fibonacci_calculator.py", "10000000000000000000000000000000000000000000000000000000000000000000000000000000000000000000000000000000000000000000000000000000000000000000000000000000000"] = .raised "OverflowError" :=
  ⟨rfl, rfl⟩

/-- C8: end-to-end runs — on argument "12345" the program reports that the
input is not a Fibonacci number and that the next one is 17711, and on
argument "0" it reports membership and next value 1; both runs print
exactly the three lines on standard output and exit with status 0. -/
theorem c8_end_to_end :
    pyMain ["fibonacci_calculator.py", "12345"] =
      .exited 0
        ["Input number: 12345", "Is Fibonacci: False", "Next Fibonacci: 17711"] [] ∧
    pyMain ["fibonacci_calculator.py", "0"] =
      .exited 0
        ["Input number: 0", "Is Fibonacci: True", "Next Fibonacci: 1"] [] :=
  ⟨rfl, rfl⟩

